import Mathlib

/-!
Verification of the record-segmentation, selection and annotated-output
pipeline of the `lgrep` tool, shallowly embedded from the Rust sources.

Regular expressions are opaque matcher capabilities in the source
(`Regex::is_match : &str -> bool`), so they are modelled as plain
`String → Bool` predicates.  Text is modelled as Lean `String`
(`List Char` where the code slices by position); byte positions of the
Rust code are modelled as character positions of the decoded text.
-/

namespace Lgrep

/-- Exit outcome of processing (Rust `Exit::{NoMatch, Match, Terminate}`,
`Match` rendered here as `matched`). -/
inductive Exit where
  | noMatch
  | matched
  | terminate
deriving DecidableEq

/-- The handler configuration, from `src/handler.rs` (`struct Handler`).
Only the fields the processing logic reads are kept; each compiled regex
is modelled as an opaque `String → Bool` predicate, exactly how the code
uses it (`is_match` only). -/
structure Handler where
  patternSet : String → Bool
  invertMatch : Bool
  counts : Bool
  maxCount : Option Nat
  logPattern : String → Bool
  start : Option (String → Bool)
  end_ : Option (String → Bool)
  filenames : Bool

/-- Rust `opt_re_match` (src/handler.rs lines 35-41): an absent pattern
never matches. -/
def optReMatch (optRe : Option (String → Bool)) (hay : String) : Bool :=
  match optRe with
  | some re => re hay
  | none => false

/-- Rust `Handler::is_match` (src/handler.rs lines 148-150):
`invert_match ^ pattern_set.is_match(hay)`. -/
def isMatch (h : Handler) (hay : String) : Bool :=
  xor h.invertMatch (h.patternSet hay)

/-- Rust `Handler::has_start` (src/handler.rs lines 152-154). -/
def hasStart (h : Handler) : Bool :=
  h.start.isSome

/-- Rust `Handler::is_start` (src/handler.rs lines 156-158). -/
def isStart (h : Handler) (hay : String) : Bool :=
  optReMatch h.start hay

/-- Rust `Handler::is_end` (src/handler.rs lines 165-167). -/
def isEnd (h : Handler) (hay : String) : Bool :=
  optReMatch h.end_ hay

/-- Rust `Handler::is_max_reached` (src/handler.rs lines 140-146):
`match_count >= mc` when a max count is configured, otherwise false. -/
def isMaxReached (h : Handler) (matchCount : Nat) : Bool :=
  match h.maxCount with
  | some mc => decide (mc ≤ matchCount)
  | none => false

/-- Per-file processing state of `Handler::process_file`
(src/handler.rs lines 75-138): the `file_started` gate, the running
`match_count`, the records written to the sink (`out`), and whether the
record loop has been broken out of (`stopped`, the closure returning
`Ok(false)`).  The extra field `tested` instruments evaluation order: it
records every record on which `self.is_match` is actually evaluated,
mirroring the short-circuit of `file_started && self.is_match(&record)`. -/
structure FileState where
  fileStarted : Bool
  matchCount : Nat
  out : List String
  tested : List String
  stopped : Bool
deriving DecidableEq

/-- One invocation of the `process_record` closure of
`Handler::process_file` (src/handler.rs lines 80-100), on the success
path of the sink (writes are modelled separately for the failure
analysis).  A record processed after the loop has been broken is a
no-op, which models the `break`. -/
def processRecord (h : Handler) (st : FileState) (record : String) : FileState :=
  if st.stopped then st
  else if record = "" then st
  else if isEnd h record then { st with stopped := true }
  else
    let st1 := if !st.fileStarted && isStart h record then { st with fileStarted := true } else st
    if st1.fileStarted then
      let st2 := { st1 with tested := st1.tested ++ [record] }
      if isMatch h record then
        let st3 := { st2 with
          out := if h.counts then st2.out else st2.out ++ [record],
          matchCount := st2.matchCount + 1 }
        if isMaxReached h st3.matchCount then { st3 with stopped := true } else st3
      else st2
    else st1

/-- The sequence of `process_record` invocations that the line loop of
`Handler::process_file` performs, one per completed record. -/
def processRecords (h : Handler) (st : FileState) (records : List String) : FileState :=
  records.foldl (processRecord h) st

/-- Initial per-file state: `file_started = !self.has_start()`
(src/handler.rs line 76), everything else empty. -/
def initState (h : Handler) : FileState :=
  { fileStarted := !(hasStart h), matchCount := 0, out := [], tested := [], stopped := false }

/-- Run the record-level state machine of `Handler::process_file` over a
records of the file. -/
def processFileRecords (h : Handler) (records : List String) : FileState :=
  processRecords h (initState h) records

/-- The exit value `Handler::process_file` returns
(src/handler.rs lines 133-137): `NoMatch` iff `match_count == 0`. -/
def processFileExit (h : Handler) (records : List String) : Exit :=
  if (processFileRecords h records).matchCount = 0 then Exit.noMatch else Exit.matched

/-! ## Record segmentation

Two implementations exist in the sources: the inline line loop of
`Handler::process_file` (src/handler.rs lines 102-129) and the `Records`
iterator (src/read/records.rs lines 50-96).  Both are embedded, as
line-list to record-list functions over the record text (the ordinal
fields of `Record` are not needed by the segmentation claims). -/

/-- The line loop of `Handler::process_file` (src/handler.rs lines
102-129), restricted to how it forms records: `before_first_record`
starts true and is cleared as soon as any line (including the first)
matches the record-start pattern; a line starting a record flushes the
previous record (the `is_empty` guard of `process_record` drops the
initial empty one); otherwise the line is appended to the current
record; the final record is flushed after the loop. -/
def segLoop (p : String → Bool) (beforeFirst : Bool) (record : String) : List String → List String
  | [] => if record = "" then [] else [record]
  | l :: ls =>
    let sor := p l
    let bf := if beforeFirst && sor then false else beforeFirst
    if bf || sor then
      if record = "" then segLoop p bf l ls else record :: segLoop p bf l ls
    else
      segLoop p bf (record ++ l) ls

/-- Record segmentation as performed by `Handler::process_file`
(src/handler.rs lines 102-129). -/
def segmentLines (p : String → Bool) (ls : List String) : List String :=
  segLoop p true "" ls

/-- The record-building loop of `Records::next`
(src/read/records.rs lines 50-96), run to exhaustion of the line
iterator.  `record` is the record under construction (seeded from
`advance()` without testing it against the pattern); each further line
is tested: on a match `before_first_record` is cleared and the line is
stashed as the start of the next record; before the first match a
non-matching line is likewise stashed (orphan records); otherwise it is
appended via `Record::push_line`.  End of input flushes the record. -/
def recLoop (p : String → Bool) (beforeFirst : Bool) (record : String) : List String → List String
  | [] => [record]
  | l :: ls =>
    if p l then record :: recLoop p false l ls
    else if beforeFirst then record :: recLoop p beforeFirst l ls
    else recLoop p beforeFirst (record ++ l) ls

/-- Record segmentation as performed by iterating `Records::next`
(src/read/records.rs): an empty line stream yields no records, otherwise
the first line seeds the first record without being tested against the
record-start pattern. -/
def recordsOf (p : String → Bool) : List String → List String
  | [] => []
  | l :: ls => recLoop p true l ls

/-! ## Line readers

`read_line` on a byte stream returns the next line up to and including
the `\n` terminator (the final line of a stream may lack one), and
returns length 0 exactly at end of stream.  So iterating it splits the
stream inclusively at every `\n`; `splitInc` is that splitting. -/

/-- Inclusive split at a delimiter character, keeping the delimiter at
the end of each piece (Rust `split_inclusive`, and the effect of
repeated `read_line` calls for the line readers).  An empty input yields
no pieces. -/
def splitInc (c : Char) : List Char → List (List Char)
  | [] => []
  | x :: xs =>
    if x = c then [x] :: splitInc c xs
    else match splitInc c xs with
         | [] => [[x]]
         | s :: ss => (x :: s) :: ss

/-- Attach 1-based ordinals in order (`line_num` starts at 0 and is
incremented before each `Line` is produced). -/
def number1 (xs : List String) : List (String × Nat) :=
  xs.enum.map (fun p => (p.2, p.1 + 1))

/-- The `Lines` iterator of src/read.rs (lines 44-67): each `Line`
carries the text exactly as `read_line` produced it, terminator
included, with its 1-based ordinal. -/
def linesKeep (input : List Char) : List (String × Nat) :=
  number1 ((splitInc '\n' input).map String.mk)

/-- The `text.pop()` applied by src/read/lines.rs (lines 44-46):
`if text.ends_with('\n') { text.pop(); }`. -/
def popNl (l : List Char) : List Char :=
  if l.getLast? = some '\n' then l.dropLast else l

/-- The `Lines` iterator of src/read/lines.rs (lines 29-55): like
the reader of src/read.rs, but the trailing `\n` is popped from the text
text before the `Line` is produced. -/
def linesPop (input : List Char) : List (String × Nat) :=
  number1 ((splitInc '\n' input).map (fun cs => String.mk (popNl cs)))

/-! ## Match highlighting (`LgrepWrite::write_record_with_matches`,
src/write.rs lines 69-95)

The code walks the (non-overlapping, in-order) match spans the regex
engine found over the whole record text, copying the text before each
span verbatim and wrapping the text of each span in the match style
(`format!("{}{}{0:#}", s, ...)` emits the prefix codes of the style, the
span text, then the reset codes), then the verbatim tail.  The style
wrapping is modelled by tagging each emitted piece as `raw` or
`styled`; stripping the injected style codes is then dropping the
tags and concatenating. -/

/-- One piece of styled output text: verbatim record text, or record
text wrapped in the match style. -/
inductive Seg where
  | raw (cs : List Char)
  | styled (cs : List Char)
deriving DecidableEq

/-- The slice `&record.text[a..b]` (positions over the decoded text). -/
def extract (text : List Char) (a b : Nat) : List Char :=
  (text.drop a).take (b - a)

/-- The span-walking loop of `write_record_with_matches`
(src/write.rs lines 79-89): `thru` is the end of the text consumed so
far; a gap is emitted verbatim only when `m.start() > thru`; each span
is emitted styled; the tail after the last span is emitted verbatim
when nonempty. -/
def highlightGo (text : List Char) : Nat → List (Nat × Nat) → List Seg
  | thru, [] =>
    if thru < text.length then [Seg.raw (extract text thru text.length)] else []
  | thru, (s, e) :: ms =>
    (if thru < s then [Seg.raw (extract text thru s)] else [])
      ++ Seg.styled (extract text s e) :: highlightGo text e ms
/-- The styled text `write_record_with_matches` builds from the whole
text of a record and the match spans found over it. -/
def highlight (text : List Char) (spans : List (Nat × Nat)) : List Seg :=
  highlightGo text 0 spans

/-- Strip the injected style codes: keep the text of every piece, styled or
not, in order. -/
def stripSegs : List Seg → List Char
  | [] => []
  | Seg.raw cs :: r => cs ++ stripSegs r
  | Seg.styled cs :: r => cs ++ stripSegs r

/-- The pieces that were wrapped in the match style. -/
def styledParts : List Seg → List (List Char)
  | [] => []
  | Seg.raw _ :: r => styledParts r
  | Seg.styled cs :: r => cs :: styledParts r

/-- What the regex engine guarantees about the span list it yields over
`text` starting from position `thru`: spans come in order, do not
overlap, and lie within the text (`FindMatches` of `regex_automata` is
non-overlapping and left-to-right). -/
def spansOK (len : Nat) : Nat → List (Nat × Nat) → Bool
  | _, [] => true
  | thru, (s, e) :: ms =>
    decide (thru ≤ s) && decide (s ≤ e) && decide (e ≤ len) && spansOK len e ms

/-! ## Annotated rendering

`with_filename` (src/handler.rs lines 205-219) and the plain
(no-colorization) branch of `LgrepWrite::spew_internal`
(src/write.rs lines 116-153). -/

/-- Rust `record.as_bytes().split_inclusive(|b| *b == b'\n')`, resp.
`text.split_inclusive('\n')`, as a list of line segments. -/
def splitSegs (s : String) : List String :=
  (splitInc '\n' s.data).map String.mk

/-- The segment loop of `with_filename` (src/handler.rs lines 208-219):
filename, then the delimiter (`:` for the first segment, `-` after),
then the segment, for every segment. -/
def wfLoop (fname : String) (delim : String) : List String → String
  | [] => ""
  | l :: ls => fname ++ delim ++ l ++ wfLoop fname "-" ls

/-- Rust `with_filename` (src/handler.rs lines 205-219). -/
def withFilename (fname record : String) : String :=
  wfLoop fname ":" (splitSegs record)

/-- The segment loop of `LgrepWrite::spew_internal`
(src/write.rs lines 122-151), no-colorization branch
(`self.capabilities` is `None`): per segment, optionally the filename
followed by the separator, optionally the current line number followed
by the separator, then the segment; the separator starts as `:` and
becomes `-` after the first segment; the line number starts at the
first line ordinal of the record and increments per segment.  (The
`FLUSH_BUFFER_AT` flush is I/O only and does not affect the text.) -/
def spewLoop (fns lns : Bool) (fname sep : String) (lineNum : Nat) : List String → String
  | [] => ""
  | seg :: rest =>
    (if fns then fname ++ sep else "")
      ++ (if lns then toString lineNum ++ sep else "")
      ++ seg
      ++ spewLoop fns lns fname "-" (lineNum + 1) rest

/-- Rust `LgrepWrite::spew_internal` (src/write.rs lines 116-153) with
colorization off. -/
def spewInternalPlain (fns lns : Bool) (fname : String) (firstLine : Nat) (text : String) : String :=
  spewLoop fns lns fname ":" firstLine (splitSegs text)

/-- Rendering of the remaining (non-first) segments as the spec words
it: every subsequent segment uses the separator `-`. -/
def renderRest (fns lns : Bool) (fname : String) (lineNum : Nat) : List String → String
  | [] => ""
  | seg :: rest =>
    (if fns then fname ++ "-" else "")
      ++ (if lns then toString lineNum ++ "-" else "")
      ++ seg
      ++ renderRest fns lns fname (lineNum + 1) rest

/-- Modelled from the spec: "For the first segment, the separator
character is `:`; for every subsequent segment, it is `-`", with the
optional filename and line-number prefix elements each followed by that
separator. -/
def renderAnnotated (fns lns : Bool) (fname : String) (firstLine : Nat) : List String → String
  | [] => ""
  | seg :: rest =>
    (if fns then fname ++ ":" else "")
      ++ (if lns then toString firstLine ++ ":" else "")
      ++ seg
      ++ renderRest fns lns fname (firstLine + 1) rest

/-! ## Color capabilities (`Capabilities::from_str`,
src/write/capabilities.rs lines 47-71)

`parse_style` (the SGR code table) is a collaborator here and is kept
opaque: a `String → Option σ` over an arbitrary style type `σ`, exactly
how `from_str` consumes it. -/

/-- The capability set (src/write/capabilities.rs `struct
Capabilities`), parametric in the style representation. -/
structure Capabilities (σ : Type) where
  matchText : Option σ
  filename : Option σ
  lineNumber : Option σ
  separator : Option σ
deriving DecidableEq

/-- Rust `str::strip_prefix` for the recognized token keys. -/
def stripPre (pre s : String) : Option String :=
  if pre.data.isPrefixOf s.data then some (String.mk (s.data.drop pre.data.length)) else none

/-- One iteration of the token loop of `Capabilities::from_str`
(src/write/capabilities.rs lines 53-68): state is the capability set
under construction plus the `found_ms` flag; an `mt=` token is applied
only while no `ms=` token has been seen; an `ms=` token is always
applied and sets `found_ms`; `fn=`, `ln=`, `se=` set their slots; any
other token falls through and changes nothing. -/
def capStep {σ : Type} (ps : String → Option σ) (st : Capabilities σ × Bool) (part : String) :
    Capabilities σ × Bool :=
  let caps := st.1
  let foundMs := st.2
  match stripPre "mt=" part with
  | some tail => (if foundMs then caps else { caps with matchText := ps tail }, foundMs)
  | none =>
  match stripPre "ms=" part with
  | some tail => ({ caps with matchText := ps tail }, true)
  | none =>
  match stripPre "fn=" part with
  | some tail => ({ caps with filename := ps tail }, foundMs)
  | none =>
  match stripPre "ln=" part with
  | some tail => ({ caps with lineNumber := ps tail }, foundMs)
  | none =>
  match stripPre "se=" part with
  | some tail => ({ caps with separator := ps tail }, foundMs)
  | none => (caps, foundMs)

/-- The token loop of `Capabilities::from_str` over an already-split
token list, starting from an initial capability set (`from_str` starts
from `Capabilities::default()`), with `found_ms` initially false. -/
def processTokens {σ : Type} (ps : String → Option σ) (init : Capabilities σ)
    (tokens : List String) : Capabilities σ :=
  (tokens.foldl (capStep ps) (init, false)).1

/-- Rust `s.split(':')`: non-inclusive split, an empty string yielding
one empty token. -/
def splitOnChar (c : Char) : List Char → List (List Char)
  | [] => [[]]
  | x :: xs =>
    if x = c then [] :: splitOnChar c xs
    else match splitOnChar c xs with
         | [] => [[x]]
         | s :: ss => (x :: s) :: ss

/-- Rust `Capabilities::from_str` (src/write/capabilities.rs lines
47-71), parametric in `parse_style` and in the default capability
set. -/
def fromStr {σ : Type} (ps : String → Option σ) (init : Capabilities σ) (s : String) :
    Capabilities σ :=
  processTokens ps init ((splitOnChar ':' s.data).map String.mk)

/-- A token is recognized when it carries one of the five known
`key=` prefixes. -/
def recognizedTok (t : String) : Bool :=
  (stripPre "mt=" t).isSome || (stripPre "ms=" t).isSome || (stripPre "fn=" t).isSome
    || (stripPre "ln=" t).isSome || (stripPre "se=" t).isSome

/-- Whether any token of the list is an `ms=` token. -/
def hasMsTok (tokens : List String) : Bool :=
  tokens.any (fun t => (stripPre "ms=" t).isSome)

/-- The style-code tail of the last `ms=` token, folded left like the
token loop itself. -/
def lastMsAux (acc : Option String) : List String → Option String
  | [] => acc
  | t :: ts =>
    match stripPre "ms=" t with
    | some tail => lastMsAux (some tail) ts
    | none => lastMsAux acc ts

/-- The style-code tail of the last `ms=` token of the list, if any. -/
def lastMsTail (tokens : List String) : Option String :=
  lastMsAux none tokens

/-! ## Write failure handling

`Handler::write` (src/handler.rs lines 173-189) and `LgrepWrite::spew`
(src/write.rs lines 101-114) share the same dispatch on the I/O result
of writing plus flushing: a `BrokenPipe` error becomes the clean
`Ok(Exit::Terminate)`, any other error is propagated wrapped with the
"Failed to write" context, success is `Ok(Exit::Match)`. -/

/-- Outcome of one attempt to write to (and flush) the sink. -/
inductive WriteOutcome where
  | ok
  | brokenPipe
  | err
deriving DecidableEq

/-- The error dispatch shared by `Handler::write` (src/handler.rs lines
180-188) and `LgrepWrite::spew` (src/write.rs lines 105-113). -/
def writeDispatch : WriteOutcome → Except String Exit
  | WriteOutcome.ok => Except.ok Exit.matched
  | WriteOutcome.brokenPipe => Except.ok Exit.terminate
  | WriteOutcome.err => Except.error "Failed to write"

/-- Per-file state for the sink-aware run of `Handler::process_file`:
as `FileState`, plus the number of write attempts made so far (the
behavior of the sink is a function of that index). -/
structure IoState where
  fileStarted : Bool
  matchCount : Nat
  stopped : Bool
  writeCalls : Nat
deriving DecidableEq

/-- One invocation of the `process_record` closure (src/handler.rs
lines 80-100) with the sink modelled: when a selected record is written
(`!self.counts`), the statement is `self.write(sink, &record, filename)?;`
— an `Err` propagates, but the `Ok` *value* (`Match` or `Terminate`) is
discarded. -/
def processRecordSink (h : Handler) (sink : Nat → WriteOutcome) (st : IoState) (record : String) :
    Except String IoState :=
  if st.stopped then Except.ok st
  else if record = "" then Except.ok st
  else if isEnd h record then Except.ok { st with stopped := true }
  else
    let st1 := if !st.fileStarted && isStart h record then { st with fileStarted := true } else st
    if st1.fileStarted && isMatch h record then
      if h.counts then
        let st2 := { st1 with matchCount := st1.matchCount + 1 }
        if isMaxReached h st2.matchCount then Except.ok { st2 with stopped := true }
        else Except.ok st2
      else
        match writeDispatch (sink st1.writeCalls) with
        | Except.error e => Except.error e
        | Except.ok _ =>
          let st2 := { st1 with writeCalls := st1.writeCalls + 1,
                                matchCount := st1.matchCount + 1 }
          if isMaxReached h st2.matchCount then Except.ok { st2 with stopped := true }
          else Except.ok st2
    else Except.ok st1

/-- The record loop of `Handler::process_file`, sink-aware. -/
def processRecsSink (h : Handler) (sink : Nat → WriteOutcome) :
    IoState → List String → Except String IoState
  | st, [] => Except.ok st
  | st, r :: rs =>
    match processRecordSink h sink st r with
    | Except.error e => Except.error e
    | Except.ok st1 => processRecsSink h sink st1 rs

/-- Sink-aware `Handler::process_file` (src/handler.rs lines 75-138)
over a records of the file: runs the record loop, then in counts mode writes
the count line (src/handler.rs lines 130-132, again with the returned
`Exit` discarded), and returns `NoMatch` iff `match_count == 0`,
together with the global write-attempt counter. -/
def processFileSink (h : Handler) (sink : Nat → WriteOutcome) (k0 : Nat) (records : List String) :
    Except String (Exit × Nat) :=
  let st0 : IoState :=
    { fileStarted := !(hasStart h), matchCount := 0, stopped := false, writeCalls := k0 }
  match processRecsSink h sink st0 records with
  | Except.error e => Except.error e
  | Except.ok st =>
    let exit := if st.matchCount = 0 then Exit.noMatch else Exit.matched
    if h.counts then
      match writeDispatch (sink st.writeCalls) with
      | Except.error e => Except.error e
      | Except.ok _ => Except.ok (exit, st.writeCalls + 1)
    else Except.ok (exit, st.writeCalls)

/-- The file loop of `Handler::run` (src/handler.rs lines 46-61): files
in order; a file whose processing returns `Terminate` makes `run`
return `Terminate` at once (no further file is opened); a `Match`
upgrades the eventual exit. -/
def runLoop (h : Handler) (sink : Nat → WriteOutcome) : Exit → Nat → List (List String) →
    Except String (Exit × Nat)
  | exit, k, [] => Except.ok (exit, k)
  | exit, k, f :: fs =>
    match processFileSink h sink k f with
    | Except.error e => Except.error e
    | Except.ok (Exit.terminate, k1) => Except.ok (Exit.terminate, k1)
    | Except.ok (Exit.matched, k1) => runLoop h sink Exit.matched k1 fs
    | Except.ok (Exit.noMatch, k1) => runLoop h sink exit k1 fs

/-- `Handler::run` over a list of files (each given by its record
list), starting from the `NoMatch` exit. -/
def runFiles (h : Handler) (sink : Nat → WriteOutcome) (files : List (List String)) :
    Except String (Exit × Nat) :=
  runLoop h sink Exit.noMatch 0 files

/-! ## Concrete fixtures

Concrete predicates and handler configurations used as witness and
counterexample inputs.  Predicates are whole-line equality tests, which
are particular regex matchers. -/

/-- Matcher selecting exactly the given line. -/
def eqPred (t : String) : String → Bool :=
  fun s => decide (s = t)

/-- Record-start predicate matching exactly the line `"M\n"`. -/
def pM : String → Bool :=
  eqPred "M\n"

/-- Handler with only a match pattern (selects `"a\n"`). -/
def hPlain : Handler :=
  { patternSet := eqPred "a\n", invertMatch := false, counts := false, maxCount := none,
    logPattern := fun _ => true, start := none, end_ := none, filenames := false }

/-- Handler with a start boundary pattern (start and match both select
`"S\n"`). -/
def hStart : Handler :=
  { hPlain with patternSet := eqPred "S\n", start := some (eqPred "S\n") }

/-- Handler with an end boundary pattern selecting `"E\n"`. -/
def hEnd : Handler :=
  { hPlain with end_ := some (eqPred "E\n") }

/-- Handler with both start and end boundary patterns. -/
def hBoth : Handler :=
  { hPlain with start := some (eqPred "S\n"), end_ := some (eqPred "E\n") }

/-- Handler with a maximum match count of zero. -/
def hMaxZero : Handler :=
  { hPlain with maxCount := some 0 }

/-- Handler with a maximum match count of one. -/
def hMaxOne : Handler :=
  { hPlain with maxCount := some 1 }

/-- Opaque style parser fixture over `Nat` styles: recognizes the SGR
code strings "35" and "32". -/
def psFix : String → Option Nat :=
  fun t => if t = "35" then some 35 else if t = "32" then some 32 else none

/-- Empty capability set fixture. -/
def capsNone : Capabilities Nat :=
  { matchText := none, filename := none, lineNumber := none, separator := none }

/-! # Theorems -/

/-- Claim C1: the claim states that once any line matches the
record-start predicate — the first line included — the "before first
record" mode is permanently off, so a non-matching line after a matching
first line is appended to the current record.  `Records::next`
(src/read/records.rs lines 50-96) violates this: the first line of the file
is consumed by `advance()` without ever being tested against the
pattern, so `before_first_record` stays on and the following
non-matching line becomes an orphan one-line record.  The line loop of
`Handler::process_file` (src/handler.rs lines 102-129) tests every line
and produces the single record the claim describes. -/
theorem c1_records_first_line_divergence :
    recordsOf pM ["M\n", "x\n"] = ["M\n", "x\n"]
      ∧ segmentLines pM ["M\n", "x\n"] = ["M\nx\n"] := by
  constructor <;> decide

/-- Claim C8: on the stream `"one\ntwo"`, the reader of
src/read/lines.rs produces `Line { text: "one", line_num: 1 }` — the
trailing terminator is popped (lines 44-46), contradicting the claim —
while the reader of src/read.rs preserves it (`"one\n"`), as do the
expectations of the unit tests of src/read/records.rs, which build
records `"one\n"` from these lines. -/
theorem c8_lines_pop_terminator_divergence :
    linesPop ("one\ntwo".data) = [("one", 1), ("two", 2)]
      ∧ linesKeep ("one\ntwo".data) = [("one\n", 1), ("two", 2)] := by
  constructor <;> decide

/-- Claim C4: the broken-pipe dispatch itself behaves as claimed
(`BrokenPipe` becomes the clean `Ok(Terminate)`, any other failure the
contextual error), but `Handler::process_file` discards the `Exit`
value of `Handler::write` (src/handler.rs line 92: `self.write(..)?;`),
so with a sink whose every write fails with `BrokenPipe`, both records
of the first file and the record of the second file are still written
to (3 write attempts) and `Handler::run` returns `Match`, not
`Terminate`: processing does not stop and the file loop continues. -/
theorem c4_broken_pipe_terminate_discarded :
    writeDispatch WriteOutcome.brokenPipe = Except.ok Exit.terminate
      ∧ writeDispatch WriteOutcome.err = Except.error "Failed to write"
      ∧ runFiles hPlain (fun _ => WriteOutcome.brokenPipe) [["a\n", "a\n"], ["a\n"]]
          = Except.ok (Exit.matched, 3) := by
  refine ⟨rfl, rfl, ?_⟩
  rfl

/-- Claim C5 counterexample: with a configured maximum match count of
zero, the first selected record is nevertheless written out
(`is_max_reached` is only consulted after the record has been written
and counted, src/handler.rs lines 90-97), and the outcome of the file is
`Match`, not the "no match" outcome the claim states. -/
theorem c5_max_zero_counterexample :
    (processFileRecords hMaxZero ["a\n"]).out = ["a\n"]
      ∧ processFileExit hMaxZero ["a\n"] = Exit.matched := by
  constructor <;> decide

/-! ## State-machine lemmas -/

/-- Once the record loop has been broken out of, further records are
no-ops. -/
theorem processRecord_stopped (h : Handler) (st : FileState) (r : String)
    (hs : st.stopped = true) : processRecord h st r = st := by
  simp [processRecord, hs]

/-- Once stopped, a whole record list is a no-op. -/
theorem processRecords_stopped (h : Handler) (st : FileState) (rs : List String)
    (hs : st.stopped = true) : processRecords h st rs = st := by
  induction rs with
  | nil => rfl
  | cons r rs ih =>
    show processRecords h (processRecord h st r) rs = st
    rw [processRecord_stopped h st r hs]
    exact ih

/-- The record loop over a concatenation processes the prefix first. -/
theorem processRecords_append (h : Handler) (st : FileState) (rs₁ rs₂ : List String) :
    processRecords h st (rs₁ ++ rs₂) = processRecords h (processRecords h st rs₁) rs₂ :=
  List.foldl_append _ _ _ _

/-- A nonempty record matching the end pattern just breaks the loop:
no gate update, no match test, no write, no count. -/
theorem processRecord_end (h : Handler) (st : FileState) (r : String)
    (hs : st.stopped = false) (hne : r ≠ "") (he : isEnd h r = true) :
    processRecord h st r = { st with stopped := true } := by
  simp [processRecord, hs, hne, he]

/-- Claim C3: a nonempty record matching the configured end pattern
stops processing of the file at once: the output, the records tested
against the match patterns, and the match count of the whole file equal
those accumulated strictly before it, and the loop is broken there. -/
theorem c3_end_record_stops (h : Handler) (rs₁ rs₂ : List String) (r : String)
    (hne : r ≠ "") (he : isEnd h r = true) :
    (processFileRecords h (rs₁ ++ r :: rs₂)).out = (processFileRecords h rs₁).out
      ∧ (processFileRecords h (rs₁ ++ r :: rs₂)).tested = (processFileRecords h rs₁).tested
      ∧ (processFileRecords h (rs₁ ++ r :: rs₂)).matchCount
          = (processFileRecords h rs₁).matchCount
      ∧ ((processFileRecords h rs₁).stopped = false →
          (processFileRecords h (rs₁ ++ r :: rs₂)).stopped = true) := by
  have hfull : processFileRecords h (rs₁ ++ r :: rs₂)
      = processRecords h (processRecord h (processFileRecords h rs₁) r) rs₂ := by
    unfold processFileRecords
    rw [processRecords_append]
    rfl
  by_cases hst : (processFileRecords h rs₁).stopped = true
  · rw [hfull, processRecord_stopped h _ r hst, processRecords_stopped h _ rs₂ hst]
    refine ⟨rfl, rfl, rfl, fun hc => ?_⟩
    rw [hc] at hst
    exact absurd hst (by simp)
  · have hst' : (processFileRecords h rs₁).stopped = false := by
      revert hst
      cases (processFileRecords h rs₁).stopped <;> simp
    rw [hfull, processRecord_end h _ r hst' hne he, processRecords_stopped h _ rs₂ rfl]
    exact ⟨rfl, rfl, rfl, fun _ => rfl⟩

/-- Witness for C3: a concrete end-matching record wipes out the rest
of the file. -/
theorem c3_end_record_stops_witness :
    "E\n" ≠ ""
      ∧ isEnd hEnd "E\n" = true
      ∧ ((processFileRecords hEnd (["a\n"] ++ "E\n" :: ["a\n"])).out
            = (processFileRecords hEnd ["a\n"]).out
          ∧ (processFileRecords hEnd (["a\n"] ++ "E\n" :: ["a\n"])).tested
              = (processFileRecords hEnd ["a\n"]).tested
          ∧ (processFileRecords hEnd (["a\n"] ++ "E\n" :: ["a\n"])).matchCount
              = (processFileRecords hEnd ["a\n"]).matchCount
          ∧ ((processFileRecords hEnd ["a\n"]).stopped = false →
              (processFileRecords hEnd (["a\n"] ++ "E\n" :: ["a\n"])).stopped = true)) :=
  ⟨by decide, by decide, c3_end_record_stops hEnd ["a\n"] ["a\n"] "E\n" (by decide) (by decide)⟩

/-- Records that match neither boundary pattern while the start gate is
closed leave the state untouched: nothing is tested, counted or
written. -/
theorem processRecords_skip (h : Handler) (hs : hasStart h = true) :
    ∀ rs : List String, (∀ x ∈ rs, isStart h x = false ∧ isEnd h x = false) →
      processFileRecords h rs = initState h := by
  intro rs
  induction rs with
  | nil => intro _; rfl
  | cons x rs ih =>
    intro hng
    have hx := hng x (List.mem_cons_self x rs)
    have hstep : processRecord h (initState h) x = initState h := by
      by_cases hxe : x = ""
      · simp [processRecord, hxe, initState]
      · simp [processRecord, hxe, hx.1, hx.2, initState, hs]
    show processRecords h (processRecord h (initState h) x) rs = initState h
    rw [hstep]
    exact ih (fun y hy => hng y (List.mem_cons_of_mem x hy))

/-- Claim C2: with a start boundary pattern configured, every record
before the first start-matching one contributes nothing — it is not
tested against the match patterns, not counted, and not written — and
the record containing the first start match is itself tested and is
written and counted exactly when it is selected (written only when not
in counts mode). -/
theorem c2_start_gate (h : Handler) (rs₁ : List String) (r : String)
    (hs : hasStart h = true)
    (hng : ∀ x ∈ rs₁, isStart h x = false ∧ isEnd h x = false)
    (hne : r ≠ "") (hstart : isStart h r = true) (hend : isEnd h r = false) :
    (processFileRecords h rs₁).out = []
      ∧ (processFileRecords h rs₁).tested = []
      ∧ (processFileRecords h rs₁).matchCount = 0
      ∧ (processFileRecords h (rs₁ ++ [r])).tested = [r]
      ∧ (processFileRecords h (rs₁ ++ [r])).out
          = (if isMatch h r && !h.counts then [r] else [])
      ∧ (processFileRecords h (rs₁ ++ [r])).matchCount = (if isMatch h r then 1 else 0) := by
  have hskip := processRecords_skip h hs rs₁ hng
  have happ : processFileRecords h (rs₁ ++ [r]) = processRecord h (initState h) r := by
    unfold processFileRecords at hskip ⊢
    rw [processRecords_append, hskip]
    rfl
  rw [hskip, happ]
  have hgate : (initState h).fileStarted = false := by simp [initState, hs]
  by_cases hm : isMatch h r = true
  · by_cases hc : h.counts = true
    · simp [processRecord, initState, hs, hne, hstart, hend, hm, hc]
      split <;> simp
    · have hc' : h.counts = false := by revert hc; cases h.counts <;> simp
      simp [processRecord, initState, hs, hne, hstart, hend, hm, hc']
      split <;> simp
  · have hm' : isMatch h r = false := by revert hm; cases isMatch h r <;> simp
    simp [processRecord, initState, hs, hne, hstart, hend, hm']

/-- Witness for C2: one skipped record, then a start-matching record
that is also selected, with a concrete handler. -/
theorem c2_start_gate_witness :
    hasStart hStart = true
      ∧ (∀ x ∈ ["x\n"], isStart hStart x = false ∧ isEnd hStart x = false)
      ∧ "S\n" ≠ "" ∧ isStart hStart "S\n" = true ∧ isEnd hStart "S\n" = false
      ∧ ((processFileRecords hStart ["x\n"]).out = []
          ∧ (processFileRecords hStart ["x\n"]).tested = []
          ∧ (processFileRecords hStart ["x\n"]).matchCount = 0
          ∧ (processFileRecords hStart (["x\n"] ++ ["S\n"])).tested = ["S\n"]
          ∧ (processFileRecords hStart (["x\n"] ++ ["S\n"])).out
              = (if isMatch hStart "S\n" && !hStart.counts then ["S\n"] else [])
          ∧ (processFileRecords hStart (["x\n"] ++ ["S\n"])).matchCount
              = (if isMatch hStart "S\n" then 1 else 0)) :=
  ⟨by decide, by decide, by decide, by decide, by decide,
    c2_start_gate hStart ["x\n"] "S\n" (by decide) (by decide) (by decide) (by decide)
      (by decide)⟩

/-- Claim C10: with both boundary patterns configured, an end-matching
record reached while the start gate is still closed stops the file at
once: the final state is the pristine one (gate still closed, nothing
written, nothing tested, nothing counted) with only the stop flag
set — the later records are never looked at. -/
theorem c10_end_before_start (h : Handler) (rs₁ rs₂ : List String) (r : String)
    (hs : hasStart h = true)
    (hng : ∀ x ∈ rs₁, isStart h x = false ∧ isEnd h x = false)
    (hne : r ≠ "") (hend : isEnd h r = true) :
    processFileRecords h (rs₁ ++ r :: rs₂)
      = { fileStarted := false, matchCount := 0, out := [], tested := [], stopped := true } := by
  have hskip := processRecords_skip h hs rs₁ hng
  have hfull : processFileRecords h (rs₁ ++ r :: rs₂)
      = processRecords h (processRecord h (initState h) r) rs₂ := by
    unfold processFileRecords at hskip ⊢
    rw [processRecords_append, hskip]
    rfl
  rw [hfull, processRecord_end h _ r rfl hne hend, processRecords_stopped h _ rs₂ rfl]
  simp [initState, hs]

/-- Witness for C10: end pattern fires on the second record of a file
whose start pattern never matched. -/
theorem c10_end_before_start_witness :
    hasStart hBoth = true
      ∧ (∀ x ∈ ["a\n"], isStart hBoth x = false ∧ isEnd hBoth x = false)
      ∧ "E\n" ≠ "" ∧ isEnd hBoth "E\n" = true
      ∧ processFileRecords hBoth (["a\n"] ++ "E\n" :: ["a\n", "S\n"])
          = { fileStarted := false, matchCount := 0, out := [], tested := [],
              stopped := true } :=
  ⟨by decide, by decide, by decide, by decide,
    c10_end_before_start hBoth ["a\n"] ["a\n", "S\n"] "E\n" (by decide) (by decide) (by decide)
      (by decide)⟩

/-- What one record can do to the counters: either the match count is
unchanged (and the stop flag is unchanged or raised), or — only from an
unstopped state — the count is incremented and the stop flag becomes
exactly the max-count check of the new count. -/
theorem processRecord_shape (h : Handler) (st : FileState) (r : String) :
    ((processRecord h st r).matchCount = st.matchCount
        ∧ ((processRecord h st r).stopped = st.stopped ∨ (processRecord h st r).stopped = true))
      ∨ ((processRecord h st r).matchCount = st.matchCount + 1
          ∧ (processRecord h st r).stopped = isMaxReached h (st.matchCount + 1)
          ∧ st.stopped = false) := by
  by_cases h0 : st.stopped = true
  · rw [processRecord_stopped h st r h0]
    exact Or.inl ⟨rfl, Or.inl rfl⟩
  have h0' : st.stopped = false := by revert h0; cases st.stopped <;> simp
  by_cases h1 : r = ""
  · have heq : processRecord h st r = st := by simp [processRecord, h0', h1]
    rw [heq]
    exact Or.inl ⟨rfl, Or.inl rfl⟩
  by_cases h2 : isEnd h r = true
  · rw [processRecord_end h st r h0' h1 h2]
    exact Or.inl ⟨rfl, Or.inr rfl⟩
  have h2' : isEnd h r = false := by revert h2; cases isEnd h r <;> simp
  by_cases h3 : (!st.fileStarted && isStart h r) = true
  · by_cases h4 : isMatch h r = true
    · by_cases h5 : isMaxReached h (st.matchCount + 1) = true
      · refine Or.inr ⟨?_, ?_, h0'⟩ <;> simp [processRecord, h0', h1, h2', h3, h4, h5]
      · have h5' : isMaxReached h (st.matchCount + 1) = false := by
          revert h5; cases isMaxReached h (st.matchCount + 1) <;> simp
        refine Or.inr ⟨?_, ?_, h0'⟩ <;> simp [processRecord, h0', h1, h2', h3, h4, h5']
    · have h4' : isMatch h r = false := by revert h4; cases isMatch h r <;> simp
      refine Or.inl ⟨?_, Or.inl ?_⟩ <;> simp [processRecord, h0', h1, h2', h3, h4']
  · have h3' : (!st.fileStarted && isStart h r) = false := by
      revert h3; cases (!st.fileStarted && isStart h r) <;> simp
    by_cases h6 : st.fileStarted = true
    · by_cases h4 : isMatch h r = true
      · by_cases h5 : isMaxReached h (st.matchCount + 1) = true
        · refine Or.inr ⟨?_, ?_, h0'⟩ <;> simp [processRecord, h0', h1, h2', h3', h4, h5, h6]
        · have h5' : isMaxReached h (st.matchCount + 1) = false := by
            revert h5; cases isMaxReached h (st.matchCount + 1) <;> simp
          refine Or.inr ⟨?_, ?_, h0'⟩ <;> simp [processRecord, h0', h1, h2', h3', h4, h5', h6]
      · have h4' : isMatch h r = false := by revert h4; cases isMatch h r <;> simp
        refine Or.inl ⟨?_, Or.inl ?_⟩ <;> simp [processRecord, h0', h1, h2', h3', h4', h6]
    · have h6' : st.fileStarted = false := by revert h6; cases st.fileStarted <;> simp
      have h7 : isStart h r = false := by
        rw [h6'] at h3'
        simpa using h3'
      refine Or.inl ⟨?_, Or.inl ?_⟩ <;> simp [processRecord, h0', h1, h2', h6', h7]

/-- The max-count invariant for a single step: the running match count
never exceeds `max M 1`, and while the loop has not been broken it is
strictly below it (so for `M = 0` the bound is the same as for
`M = 1`). -/
theorem processRecord_max_inv (h : Handler) (M : Nat) (hM : h.maxCount = some M)
    (st : FileState) (r : String)
    (h1 : st.matchCount ≤ max M 1) (h2 : st.stopped = false → st.matchCount < max M 1) :
    (processRecord h st r).matchCount ≤ max M 1
      ∧ ((processRecord h st r).stopped = false → (processRecord h st r).matchCount < max M 1) := by
  rcases processRecord_shape h st r with ⟨hc, hs⟩ | ⟨hc, hs, hunstopped⟩
  · constructor
    · rw [hc]; exact h1
    · intro hsf
      rw [hc]
      rcases hs with hs | hs
      · exact h2 (hs ▸ hsf)
      · rw [hsf] at hs
        exact absurd hs (by simp)
  · have hlt : st.matchCount < max M 1 := h2 hunstopped
    constructor
    · rw [hc]; omega
    · intro hsf
      rw [hs] at hsf
      simp [isMaxReached, hM] at hsf
      have hml := Nat.le_max_left M 1
      rw [hc]
      omega

/-- The max-count invariant holds of every reachable state. -/
theorem processRecords_max_inv (h : Handler) (M : Nat) (hM : h.maxCount = some M) :
    ∀ (rs : List String) (st : FileState),
      st.matchCount ≤ max M 1 → (st.stopped = false → st.matchCount < max M 1) →
      (processRecords h st rs).matchCount ≤ max M 1
        ∧ ((processRecords h st rs).stopped = false →
            (processRecords h st rs).matchCount < max M 1) := by
  intro rs
  induction rs with
  | nil => intro st h1 h2; exact ⟨h1, h2⟩
  | cons r rs ih =>
    intro st h1 h2
    have hstep := processRecord_max_inv h M hM st r h1 h2
    exact ih (processRecord h st r) hstep.1 hstep.2

/-- Claim C5, amended: with a configured maximum match count `M`, the
match count of a file never exceeds `max M 1`, and the moment it
reaches `max M 1` the rest of the file is not processed at all; a
maximum of zero therefore behaves exactly like a maximum of one (the
first selected record is still written and counted — see the
counterexample for the zero case of the original claim). -/
theorem c5_max_count_amended (h : Handler) (M : Nat) (hM : h.maxCount = some M) :
    (∀ rs : List String, (processFileRecords h rs).matchCount ≤ max M 1)
      ∧ (∀ rs₁ rs₂ : List String, (processFileRecords h rs₁).matchCount = max M 1 →
          processFileRecords h (rs₁ ++ rs₂) = processFileRecords h rs₁) := by
  have hbase : (initState h).matchCount ≤ max M 1 ∧
      ((initState h).stopped = false → (initState h).matchCount < max M 1) := by
    refine ⟨by simp [initState], fun _ => ?_⟩
    have hr := Nat.le_max_right M 1
    simp only [initState]
    omega
  constructor
  · intro rs
    exact (processRecords_max_inv h M hM rs (initState h) hbase.1 hbase.2).1
  · intro rs₁ rs₂ hcount
    have hinv := processRecords_max_inv h M hM rs₁ (initState h) hbase.1 hbase.2
    have hPF : processFileRecords h rs₁ = processRecords h (initState h) rs₁ := rfl
    rw [hPF] at hcount
    have hstopped : (processRecords h (initState h) rs₁).stopped = true := by
      by_cases hc : (processRecords h (initState h) rs₁).stopped = true
      · exact hc
      · have hc' : (processRecords h (initState h) rs₁).stopped = false := by
          revert hc; cases (processRecords h (initState h) rs₁).stopped <;> simp
        have hlt := hinv.2 hc'
        rw [hcount] at hlt
        omega
    unfold processFileRecords
    rw [processRecords_append]
    exact processRecords_stopped h _ rs₂ hstopped

/-- Witness for C5 (amended): max count one on a file with two selected
records — the count is capped at one and the second record is never
processed. -/
theorem c5_max_count_amended_witness :
    hMaxOne.maxCount = some 1
      ∧ (processFileRecords hMaxOne ["a\n", "a\n", "a\n"]).matchCount ≤ max 1 1
      ∧ processFileRecords hMaxOne (["a\n"] ++ ["a\n", "b\n"])
          = processFileRecords hMaxOne ["a\n"] :=
  ⟨rfl, (c5_max_count_amended hMaxOne 1 rfl).1 ["a\n", "a\n", "a\n"],
    (c5_max_count_amended hMaxOne 1 rfl).2 ["a\n"] ["a\n", "b\n"] (by decide)⟩

/-! ## Highlighting lemmas -/

/-- Stripping distributes over concatenation of styled pieces. -/
theorem stripSegs_append (a b : List Seg) :
    stripSegs (a ++ b) = stripSegs a ++ stripSegs b := by
  induction a with
  | nil => rfl
  | cons seg rest ih =>
    cases seg <;> simp [stripSegs, ih]

/-- A slice followed by the drop at its end reassembles the drop at its
start. -/
theorem extract_append_drop (text : List Char) (a b : Nat) (hab : a ≤ b) :
    extract text a b ++ text.drop b = text.drop a := by
  unfold extract
  conv_rhs => rw [← List.take_append_drop (b - a) (text.drop a)]
  congr 1
  rw [List.drop_drop]
  congr 1
  omega

/-- A slice reaching the end of the text is the drop at its start. -/
theorem extract_to_length (text : List Char) (a : Nat) :
    extract text a text.length = text.drop a := by
  unfold extract
  rw [← List.length_drop a text]
  simp

/-- The span walk of `write_record_with_matches`, stripped of the style
codes, reproduces the text from the current walk position on, for any
span list with the ordering guarantees of the regex engine. -/
theorem strip_highlightGo (text : List Char) :
    ∀ (spans : List (Nat × Nat)) (thru : Nat),
      spansOK text.length thru spans = true → thru ≤ text.length →
      stripSegs (highlightGo text thru spans) = text.drop thru := by
  intro spans
  induction spans with
  | nil =>
    intro thru _ hle
    unfold highlightGo
    by_cases hlt : thru < text.length
    · simp only [hlt, if_true]
      simp [stripSegs, extract_to_length]
    · have hdrop : text.drop thru = [] := List.drop_eq_nil_of_le (by omega)
      simp [hlt, stripSegs, hdrop]
  | cons sp ms ih =>
    intro thru hok hle
    obtain ⟨s, e⟩ := sp
    have hok' : ((thru ≤ s ∧ s ≤ e) ∧ e ≤ text.length) ∧ spansOK text.length e ms = true := by
      simpa [spansOK] using hok
    obtain ⟨⟨⟨hts, hse⟩, hel⟩, hrest⟩ := hok'
    have hih := ih e hrest hel
    unfold highlightGo
    rw [stripSegs_append]
    by_cases hlt : thru < s
    · simp only [hlt, if_true]
      have hgap : stripSegs [Seg.raw (extract text thru s)] = extract text thru s := by
        simp [stripSegs]
      have htail : stripSegs (Seg.styled (extract text s e) :: highlightGo text e ms)
          = extract text s e ++ stripSegs (highlightGo text e ms) := rfl
      rw [hgap, htail, hih, extract_append_drop text s e hse,
        extract_append_drop text thru s (by omega)]
    · have hs : s = thru := by omega
      have htail : stripSegs (Seg.styled (extract text s e) :: highlightGo text e ms)
          = extract text s e ++ stripSegs (highlightGo text e ms) := rfl
      have hnil : stripSegs ([] : List Seg) = [] := rfl
      simp only [hlt, if_false]
      rw [hnil, List.nil_append, htail, hih, hs, extract_append_drop text thru e (by omega)]

/-- The styled pieces that the span walk emits are exactly the span
slices, in order. -/
theorem styledParts_highlightGo (text : List Char) :
    ∀ (spans : List (Nat × Nat)) (thru : Nat),
      styledParts (highlightGo text thru spans)
        = spans.map (fun p => extract text p.1 p.2) := by
  intro spans
  induction spans with
  | nil =>
    intro thru
    unfold highlightGo
    by_cases hlt : thru < text.length <;> simp [hlt, styledParts]
  | cons sp ms ih =>
    intro thru
    obtain ⟨s, e⟩ := sp
    unfold highlightGo
    by_cases hlt : thru < s <;> simp [hlt, styledParts, ih e]

/-- Claim C6: for any match-span list with the ordering guarantees the
regex engine provides over the whole record text (so spans may cross
line terminators), the styled text `write_record_with_matches` builds
wraps exactly the span slices in the match style, and stripping the
injected style codes reproduces the raw record text exactly. -/
theorem c6_highlight_roundtrip (text : List Char) (spans : List (Nat × Nat))
    (hok : spansOK text.length 0 spans = true) :
    stripSegs (highlight text spans) = text
      ∧ styledParts (highlight text spans) = spans.map (fun p => extract text p.1 p.2) := by
  refine ⟨?_, styledParts_highlightGo text spans 0⟩
  have hmain := strip_highlightGo text spans 0 hok (Nat.zero_le _)
  simpa using hmain

/-- Witness for C6: a span crossing the line terminator of
`"aa\nbb"`. -/
theorem c6_highlight_roundtrip_witness :
    spansOK (['a', 'a', '\n', 'b', 'b'].length) 0 [(1, 4)] = true
      ∧ (stripSegs (highlight ['a', 'a', '\n', 'b', 'b'] [(1, 4)]) = ['a', 'a', '\n', 'b', 'b']
          ∧ styledParts (highlight ['a', 'a', '\n', 'b', 'b'] [(1, 4)])
              = [(1, 4)].map (fun p => extract ['a', 'a', '\n', 'b', 'b'] p.1 p.2)) :=
  ⟨by decide, c6_highlight_roundtrip ['a', 'a', '\n', 'b', 'b'] [(1, 4)] (by decide)⟩

/-! ## Annotated-rendering lemmas -/

/-- After the first segment, the spew loop is exactly the all-dash
rendering of the remaining segments. -/
theorem spewLoop_rest (fns lns : Bool) (fname : String) :
    ∀ (segs : List String) (n : Nat),
      spewLoop fns lns fname "-" n segs = renderRest fns lns fname n segs := by
  intro segs
  induction segs with
  | nil => intro n; rfl
  | cons seg rest ih =>
    intro n
    show (if fns then fname ++ "-" else "") ++ (if lns then toString n ++ "-" else "") ++ seg
        ++ spewLoop fns lns fname "-" (n + 1) rest
      = (if fns then fname ++ "-" else "") ++ (if lns then toString n ++ "-" else "") ++ seg
        ++ renderRest fns lns fname (n + 1) rest
    rw [ih (n + 1)]

/-- Claim C7: with filename (and optionally line-number) annotation
on, `spew_internal` renders a record segment by segment with the
separator `:` after each prefix element of the first segment and `-`
for every subsequent segment; in particular the two-line record
`"aaa\nbbb\n"` for file `"x.txt"` renders as
`"x.txt:aaa\nx.txt-bbb\n"`, both through `with_filename` of the handler
and through the plain branch of `spew_internal`. -/
theorem c7_annotated_rendering :
    (∀ (fns lns : Bool) (fname : String) (firstLine : Nat) (text : String),
        spewInternalPlain fns lns fname firstLine text
          = renderAnnotated fns lns fname firstLine (splitSegs text))
      ∧ withFilename "x.txt" "aaa\nbbb\n" = "x.txt:aaa\nx.txt-bbb\n"
      ∧ spewInternalPlain true false "x.txt" 1 "aaa\nbbb\n" = "x.txt:aaa\nx.txt-bbb\n" := by
  refine ⟨?_, by decide, by decide⟩
  intro fns lns fname firstLine text
  show spewLoop fns lns fname ":" firstLine (splitSegs text)
    = renderAnnotated fns lns fname firstLine (splitSegs text)
  cases splitSegs text with
  | nil => rfl
  | cons seg rest =>
    show (if fns then fname ++ ":" else "") ++ (if lns then toString firstLine ++ ":" else "")
        ++ seg ++ spewLoop fns lns fname "-" (firstLine + 1) rest
      = (if fns then fname ++ ":" else "") ++ (if lns then toString firstLine ++ ":" else "")
        ++ seg ++ renderRest fns lns fname (firstLine + 1) rest
    rw [spewLoop_rest fns lns fname rest (firstLine + 1)]

/-! ## Capability-parsing lemmas -/

/-- A token that carries none of the recognized prefixes falls through
every branch of the token loop and changes nothing. -/
theorem capStep_unrecognized {σ : Type} (ps : String → Option σ) (st : Capabilities σ × Bool)
    (t : String) (hu : recognizedTok t = false) : capStep ps st t = st := by
  unfold recognizedTok at hu
  cases hmt : stripPre "mt=" t with
  | some v => simp [hmt] at hu
  | none =>
  cases hms : stripPre "ms=" t with
  | some v => simp [hmt, hms] at hu
  | none =>
  cases hfn : stripPre "fn=" t with
  | some v => simp [hmt, hms, hfn] at hu
  | none =>
  cases hln : stripPre "ln=" t with
  | some v => simp [hmt, hms, hfn, hln] at hu
  | none =>
  cases hse : stripPre "se=" t with
  | some v => simp [hmt, hms, hfn, hln, hse] at hu
  | none => simp [capStep, hmt, hms, hfn, hln, hse]

/-- A token cannot carry both the `mt=` and the `ms=` prefix. -/
theorem stripPre_mt_none_of_ms (t : String) (h : (stripPre "ms=" t).isSome = true) :
    stripPre "mt=" t = none := by
  unfold stripPre at h ⊢
  by_cases hq : ("ms=".data).isPrefixOf t.data
  case neg => rw [if_neg hq] at h; simp at h
  by_cases hp : ("mt=".data).isPrefixOf t.data
  case neg => rw [if_neg hp]
  exfalso
  have e1 : "mt=".data = ['m', 't', '='] := rfl
  have e2 : "ms=".data = ['m', 's', '='] := rfl
  rw [e1] at hp
  rw [e2] at hq
  rcases hd : t.data with _ | ⟨c, _ | ⟨d, rest⟩⟩
  · rw [hd] at hp; simp [List.isPrefixOf] at hp
  · rw [hd] at hp; simp [List.isPrefixOf] at hp
  · rw [hd] at hp hq
    simp [List.isPrefixOf] at hp hq
    have hts : ('t' : Char) = 's' := hp.2.1.trans hq.2.1.symm
    exact absurd hts (by decide)

/-- The token loop never clears `found_ms`. -/
theorem capStep_keeps_found {σ : Type} (ps : String → Option σ) (caps : Capabilities σ)
    (t : String) : (capStep ps (caps, true) t).2 = true := by
  unfold capStep
  cases hmt : stripPre "mt=" t with
  | some v => simp
  | none =>
  cases hms : stripPre "ms=" t with
  | some v => simp
  | none =>
  cases hfn : stripPre "fn=" t with
  | some v => simp
  | none =>
  cases hln : stripPre "ln=" t with
  | some v => simp
  | none =>
  cases hse : stripPre "se=" t with
  | some v => simp
  | none => simp

/-- Once `found_ms` is set, a token list without any further `ms=`
token never changes the resolved match style: `mt=` tokens are blocked
and the other recognized tokens touch other slots. -/
theorem foldl_no_ms_matchText {σ : Type} (ps : String → Option σ) :
    ∀ (ts : List String) (caps : Capabilities σ), hasMsTok ts = false →
      (List.foldl (capStep ps) (caps, true) ts).1.matchText = caps.matchText := by
  intro ts
  induction ts with
  | nil => intro caps _; rfl
  | cons t ts ih =>
    intro caps hms
    have h1 : stripPre "ms=" t = none := by
      cases hc : stripPre "ms=" t with
      | none => rfl
      | some v => simp [hasMsTok, hc] at hms
    have h2 : hasMsTok ts = false := by
      simp only [hasMsTok, List.any_cons, Bool.or_eq_false_iff] at hms
      exact hms.2
    have hstep : (capStep ps (caps, true) t).1.matchText = caps.matchText
        ∧ (capStep ps (caps, true) t).2 = true := by
      refine ⟨?_, capStep_keeps_found ps caps t⟩
      unfold capStep
      cases hmt : stripPre "mt=" t with
      | some v => simp
      | none =>
      rw [h1]
      cases hfn : stripPre "fn=" t with
      | some v => simp
      | none =>
      cases hln : stripPre "ln=" t with
      | some v => simp
      | none =>
      cases hse : stripPre "se=" t with
      | some v => simp
      | none => simp
    rcases hcs : capStep ps (caps, true) t with ⟨c2, b2⟩
    have hb2 : b2 = true := by
      have hkeep := capStep_keeps_found ps caps t
      rw [hcs] at hkeep
      exact hkeep
    have hc2 : c2.matchText = caps.matchText := by
      have hmt := hstep.1
      rw [hcs] at hmt
      exact hmt
    rw [List.foldl_cons, hcs, hb2, ih c2 h2, hc2]

/-- If the tail has no `ms=` token, the accumulator survives the last-ms
fold. -/
theorem lastMsAux_no_ms (ts : List String) (hms : hasMsTok ts = false) :
    ∀ acc, lastMsAux acc ts = acc := by
  induction ts with
  | nil => intro acc; rfl
  | cons t ts ih =>
    intro acc
    have h1 : stripPre "ms=" t = none := by
      cases hc : stripPre "ms=" t with
      | none => rfl
      | some v => simp [hasMsTok, hc] at hms
    have h2 : hasMsTok ts = false := by
      simp only [hasMsTok, List.any_cons, Bool.or_eq_false_iff] at hms
      exact hms.2
    simp only [lastMsAux, h1]
    exact ih h2 acc

/-- If the tail does have an `ms=` token, the accumulator is
irrelevant. -/
theorem lastMsAux_irrel (ts : List String) (hms : hasMsTok ts = true) :
    ∀ acc acc2, lastMsAux acc ts = lastMsAux acc2 ts := by
  induction ts with
  | nil => simp [hasMsTok] at hms
  | cons t ts ih =>
    intro acc acc2
    cases hc : stripPre "ms=" t with
    | some v => simp [lastMsAux, hc]
    | none =>
      have h2 : hasMsTok ts = true := by
        simp only [hasMsTok, List.any_cons, Bool.or_eq_true] at hms
        rcases hms with hms | hms
        · rw [hc] at hms; simp at hms
        · exact hms
      simp only [lastMsAux, hc]
      exact ih h2 acc acc2

/-- The resolved match style after the token loop is the parse of the
style codes of the last `ms=` token, whenever any `ms=` token is present —
independently of every `mt=` token and of the initial state. -/
theorem foldl_ms_matchText {σ : Type} (ps : String → Option σ) :
    ∀ (ts : List String) (st : Capabilities σ × Bool) (tl : String),
      lastMsAux none ts = some tl →
      (List.foldl (capStep ps) st ts).1.matchText = ps tl := by
  intro ts
  induction ts with
  | nil => intro st tl h; cases h
  | cons t ts ih =>
    intro st tl h
    cases hms : stripPre "ms=" t with
    | some tail0 =>
      have hmt : stripPre "mt=" t = none := stripPre_mt_none_of_ms t (by simp [hms])
      have hstep : capStep ps st t = ({ st.1 with matchText := ps tail0 }, true) := by
        simp [capStep, hmt, hms]
      rw [List.foldl_cons, hstep]
      have hh : lastMsAux (some tail0) ts = some tl := by
        simpa [lastMsAux, hms] using h
      by_cases hts : hasMsTok ts = true
      · have : lastMsAux none ts = some tl := by
          rw [lastMsAux_irrel ts hts none (some tail0)]
          exact hh
        exact ih _ tl this
      · have hts' : hasMsTok ts = false := by revert hts; cases hasMsTok ts <;> simp
        rw [lastMsAux_no_ms ts hts' (some tail0)] at hh
        cases hh
        rw [foldl_no_ms_matchText ps ts _ hts']
    | none =>
      have hh : lastMsAux none ts = some tl := by
        simpa [lastMsAux, hms] using h
      rw [List.foldl_cons]
      exact ih _ tl hh

/-- Claim C9: in the token loop of `Capabilities::from_str`, an
unrecognized token leaves the capability set unchanged wherever it
occurs, and whenever an `ms=` (exact match style) token is present the
resolved match style is the parse of the last such token — every `mt=`
(tentative match style) token is overridden, regardless of the order of
the tokens in the string. -/
theorem c9_capabilities_parsing {σ : Type} (ps : String → Option σ) (init : Capabilities σ) :
    (∀ (pre post : List String) (t : String), recognizedTok t = false →
        processTokens ps init (pre ++ t :: post) = processTokens ps init (pre ++ post))
      ∧ (∀ (tokens : List String) (tl : String), lastMsTail tokens = some tl →
          (processTokens ps init tokens).matchText = ps tl) := by
  constructor
  · intro pre post t hu
    unfold processTokens
    rw [List.foldl_append, List.foldl_cons, capStep_unrecognized ps _ t hu, ← List.foldl_append]
  · intro tokens tl hms
    exact foldl_ms_matchText ps tokens (init, false) tl hms

/-- Witness for C9: the garbage token of the repository test suite is
a no-op, and `ms=35` beats both a preceding and a following `mt=32`. -/
theorem c9_capabilities_parsing_witness :
    recognizedTok "goober-whosit!" = false
      ∧ processTokens psFix capsNone (["fn=32"] ++ "goober-whosit!" :: ["ln=32"])
          = processTokens psFix capsNone (["fn=32"] ++ ["ln=32"])
      ∧ lastMsTail ["mt=32", "ms=35", "mt=32"] = some "35"
      ∧ (processTokens psFix capsNone ["mt=32", "ms=35", "mt=32"]).matchText = psFix "35" :=
  ⟨by decide,
    (c9_capabilities_parsing psFix capsNone).1 ["fn=32"] ["ln=32"] "goober-whosit!" (by decide),
    by decide,
    (c9_capabilities_parsing psFix capsNone).2 ["mt=32", "ms=35", "mt=32"] "35" (by decide)⟩

end Lgrep
